import Mathlib

/-!
Verification of the OnePlus anti-rollback checker's core data operations.

The central object is the per-device/region version-history ledger
maintained by `update_history.py`: a JSON object whose `history` field is
an ordered list of version records, updated by `update_history_entry`.
We embed that function, the file-loading wrapper `load_history`, the
driver's metadata population step, the INI-section extractor of
`parse_firmware_history.py`, and the version-selection rule of the
firmware locator, and prove the stated invariants and contracts.
-/

namespace ARBChecker

/-- One entry of a ledger's `history` list, as built by
`update_history_entry` in `update_history.py`.  The `status` field holds
the literal strings `"current"` or `"archived"` exactly as in the JSON. -/
structure VersionRecord where
  version : String
  arb : Int
  major : Int
  minor : Int
  first_seen : String
  last_checked : String
  status : String
  deriving DecidableEq, Repr

/-- `for e in history: e['status'] = 'archived'` — the archive-everything
loop used by the promotion and insertion branches. -/
def archiveAll (l : List VersionRecord) : List VersionRecord :=
  l.map fun e => { e with status := "archived" }

/-- Locate the first record whose `version` equals `v`, returning the
records before it, the record itself, and the records after it.  This is
the `for entry in history['history']: if entry['version'] == version`
scan of `update_history_entry`. -/
def splitAtVersion (v : String) : List VersionRecord →
    Option (List VersionRecord × VersionRecord × List VersionRecord)
  | [] => none
  | e :: rest =>
    if e.version = v then some ([], e, rest)
    else
      match splitAtVersion v rest with
      | some (pre, m, post) => some (e :: pre, m, post)
      | none => none

/-- `update_history_entry(history, version, arb, major, minor, is_historical)`
from `update_history.py`, as a pure state transition on the `history`
list.  `today` stands for `datetime.now().strftime("%Y-%m-%d")`.  Returns
the new list together with the function's boolean result.

If the version is already present, its `last_checked` is refreshed; a
non-historical call on an `archived` record promotes it (everything else
archived, record made `current` and moved to the front, `true` returned),
otherwise nothing structural changes and `false` is returned.  If the
version is absent, a fresh record is built; a non-historical call archives
all existing records and prepends it as `current` (returning `true`),
while a historical call appends it as `archived` (returning `false`). -/
def update_history_entry (history : List VersionRecord) (version : String)
    (arb major minor : Int) (today : String) (is_historical : Bool) :
    List VersionRecord × Bool :=
  match splitAtVersion version history with
  | some (pre, entry, post) =>
    let entry1 := { entry with last_checked := today }
    if is_historical = false ∧ entry.status = "archived" then
      ({ entry1 with status := "current" } :: (archiveAll pre ++ archiveAll post), true)
    else
      (pre ++ entry1 :: post, false)
  | none =>
    let new_entry : VersionRecord :=
      { version := version, arb := arb, major := major, minor := minor,
        first_seen := today, last_checked := today,
        status := if is_historical then "archived" else "current" }
    if is_historical = false then
      (new_entry :: archiveAll history, true)
    else
      (history ++ [new_entry], false)

/-- Number of records whose status is the literal `"current"`. -/
def countCurrent (h : List VersionRecord) : Nat :=
  (h.filter fun e => e.status = "current").length

/-- The arguments of one `update_history_entry` call, used to talk about
finite sequences of updates. -/
structure UpdateCall where
  version : String
  arb : Int
  major : Int
  minor : Int
  today : String
  is_historical : Bool
  deriving DecidableEq, Repr

/-- Run a sequence of `update_history_entry` calls starting from the
history list of the freshly-initialized ledger `{"history": []}`. -/
def applyCalls (calls : List UpdateCall) : List VersionRecord :=
  calls.foldl
    (fun h c => (update_history_entry h c.version c.arb c.major c.minor c.today c.is_historical).1)
    []

theorem splitAtVersion_none_iff (v : String) (h : List VersionRecord) :
    splitAtVersion v h = none ↔ ∀ e ∈ h, e.version ≠ v := by
  induction h with
  | nil => simp [splitAtVersion]
  | cons e rest ih =>
    by_cases hv : e.version = v
    · simp [splitAtVersion, hv]
    · cases hs : splitAtVersion v rest with
      | some p =>
        obtain ⟨pre, m, post⟩ := p
        simp only [splitAtVersion, if_neg hv, hs]
        constructor
        · intro hc; exact absurd hc (by simp)
        · intro hall
          have hn : splitAtVersion v rest = none :=
            ih.mpr (fun x hx => hall x (List.mem_cons_of_mem _ hx))
          rw [hn] at hs; exact absurd hs (by simp)
      | none =>
        simp only [splitAtVersion, if_neg hv, hs]
        constructor
        · intro _ x hx
          rcases List.mem_cons.mp hx with rfl | hx
          · exact hv
          · exact ih.mp hs x hx
        · intro _; trivial

theorem splitAtVersion_some (v : String) (h pre post : List VersionRecord)
    (entry : VersionRecord)
    (hs : splitAtVersion v h = some (pre, entry, post)) :
    h = pre ++ entry :: post ∧ entry.version = v ∧ ∀ e ∈ pre, e.version ≠ v := by
  induction h generalizing pre with
  | nil => simp [splitAtVersion] at hs
  | cons e rest ih =>
    by_cases hv : e.version = v
    · simp only [splitAtVersion, if_pos hv] at hs
      obtain ⟨rfl, rfl, rfl⟩ := by simpa using hs
      simp [hv]
    · simp only [splitAtVersion, if_neg hv] at hs
      cases hr : splitAtVersion v rest with
      | none => simp [hr] at hs
      | some p =>
        obtain ⟨pre', m', post'⟩ := p
        rw [hr] at hs
        obtain ⟨rfl, rfl, rfl⟩ := by simpa using hs
        obtain ⟨hrest, hver, hpre⟩ := ih pre' hr
        refine ⟨by simp [hrest], hver, ?_⟩
        intro x hx
        rcases List.mem_cons.mp hx with rfl | hx
        · exact hv
        · exact hpre x hx

theorem splitAtVersion_of_parts (v : String) (pre post : List VersionRecord)
    (entry : VersionRecord) (hpre : ∀ e ∈ pre, e.version ≠ v)
    (hver : entry.version = v) :
    splitAtVersion v (pre ++ entry :: post) = some (pre, entry, post) := by
  induction pre with
  | nil => simp [splitAtVersion, hver]
  | cons e rest ih =>
    have he : e.version ≠ v := hpre e (List.mem_cons_self e rest)
    simp only [List.cons_append, splitAtVersion, if_neg he, List.append_eq,
      ih (fun x hx => hpre x (List.mem_cons_of_mem _ hx))]

theorem update_promote (h pre post : List VersionRecord) (entry : VersionRecord)
    (v : String) (arb major minor : Int) (today : String)
    (hs : splitAtVersion v h = some (pre, entry, post))
    (harch : entry.status = "archived") :
    update_history_entry h v arb major minor today false =
      ({ entry with last_checked := today, status := "current" } ::
        (archiveAll pre ++ archiveAll post), true) := by
  unfold update_history_entry
  rw [hs]
  simp [harch]

theorem update_noop (h pre post : List VersionRecord) (entry : VersionRecord)
    (v : String) (arb major minor : Int) (today : String) (is_historical : Bool)
    (hs : splitAtVersion v h = some (pre, entry, post))
    (hcond : is_historical = true ∨ entry.status ≠ "archived") :
    update_history_entry h v arb major minor today is_historical =
      (pre ++ { entry with last_checked := today } :: post, false) := by
  unfold update_history_entry
  rw [hs]
  have : ¬ (is_historical = false ∧ entry.status = "archived") := by
    rcases hcond with hc | hc
    · simp [hc]
    · simp [hc]
  simp [this]

theorem update_insert_live (h : List VersionRecord)
    (v : String) (arb major minor : Int) (today : String)
    (hs : splitAtVersion v h = none) :
    update_history_entry h v arb major minor today false =
      ({ version := v, arb := arb, major := major, minor := minor,
         first_seen := today, last_checked := today,
         status := "current" } :: archiveAll h, true) := by
  unfold update_history_entry
  rw [hs]
  simp

theorem update_append_historical (h : List VersionRecord)
    (v : String) (arb major minor : Int) (today : String)
    (hs : splitAtVersion v h = none) :
    update_history_entry h v arb major minor today true =
      (h ++ [{ version := v, arb := arb, major := major, minor := minor,
               first_seen := today, last_checked := today,
               status := "archived" }], false) := by
  unfold update_history_entry
  rw [hs]
  simp

theorem countCurrent_nil : countCurrent [] = 0 := rfl

theorem countCurrent_cons (e : VersionRecord) (t : List VersionRecord) :
    countCurrent (e :: t) =
      (if e.status = "current" then 1 else 0) + countCurrent t := by
  by_cases he : e.status = "current" <;>
    simp [countCurrent, List.filter_cons, he, Nat.add_comm]

theorem countCurrent_append (a b : List VersionRecord) :
    countCurrent (a ++ b) = countCurrent a + countCurrent b := by
  simp [countCurrent, List.filter_append]

theorem countCurrent_archiveAll (l : List VersionRecord) :
    countCurrent (archiveAll l) = 0 := by
  induction l with
  | nil => rfl
  | cons e t ih =>
    have hstep : archiveAll (e :: t) = { e with status := "archived" } :: archiveAll t := rfl
    rw [hstep, countCurrent_cons, ih]
    simp

/-- The record built by `update_history_entry` for a previously unseen
version (`first_seen = last_checked = today`). -/
def freshRecord (v : String) (arb major minor : Int) (today st : String) :
    VersionRecord :=
  { version := v, arb := arb, major := major, minor := minor,
    first_seen := today, last_checked := today, status := st }

theorem archiveAll_length (l : List VersionRecord) :
    (archiveAll l).length = l.length := by
  simp [archiveAll]

theorem countCurrent_update_le (h : List VersionRecord) (v : String)
    (arb major minor : Int) (today : String) (is_historical : Bool)
    (hle : countCurrent h ≤ 1) :
    countCurrent (update_history_entry h v arb major minor today is_historical).1 ≤ 1 := by
  cases hs : splitAtVersion v h with
  | none =>
    cases is_historical with
    | false =>
      rw [update_insert_live h v arb major minor today hs]
      simp [countCurrent_cons, countCurrent_archiveAll]
    | true =>
      rw [update_append_historical h v arb major minor today hs]
      simpa [countCurrent_append, countCurrent_cons] using hle
  | some p =>
    obtain ⟨pre, entry, post⟩ := p
    obtain ⟨hdecomp, hver, hpre⟩ := splitAtVersion_some v h pre post entry hs
    by_cases harch : is_historical = false ∧ entry.status = "archived"
    · obtain ⟨rfl, harch⟩ := harch
      rw [update_promote h pre post entry v arb major minor today hs harch]
      simp [countCurrent_cons, countCurrent_append, countCurrent_archiveAll]
    · have hcond : is_historical = true ∨ entry.status ≠ "archived" := by
        by_cases hh : is_historical = true
        · exact Or.inl hh
        · right
          intro hst
          exact harch ⟨by simpa using hh, hst⟩
      rw [update_noop h pre post entry v arb major minor today is_historical hs hcond]
      have heq : countCurrent (pre ++ { entry with last_checked := today } :: post) =
          countCurrent h := by
        rw [hdecomp, countCurrent_append, countCurrent_append,
          countCurrent_cons, countCurrent_cons]
      rw [heq]
      exact hle

/-- Sample records used by the concrete witnesses below. -/
def rA : VersionRecord :=
  ⟨"vA", 0, 3, 0, "2026-01-01", "2026-01-01", "current"⟩

def rB : VersionRecord :=
  ⟨"vB", 1, 3, 0, "2026-01-01", "2026-01-01", "archived"⟩

/-- C1: every `update_history_entry` call preserves "at most one record has
status `current`", and after any finite sequence of update calls starting
from the empty ledger's history `[]`, at most one record is `current`. -/
theorem ledger_at_most_one_current :
    (∀ (h : List VersionRecord) (v : String) (arb major minor : Int)
        (today : String) (is_historical : Bool),
        countCurrent h ≤ 1 →
        countCurrent (update_history_entry h v arb major minor today is_historical).1 ≤ 1) ∧
    (∀ calls : List UpdateCall, countCurrent (applyCalls calls) ≤ 1) := by
  constructor
  · intro h v arb major minor today is_historical hle
    exact countCurrent_update_le h v arb major minor today is_historical hle
  · intro calls
    have gen : ∀ (cs : List UpdateCall) (acc : List VersionRecord),
        countCurrent acc ≤ 1 →
        countCurrent (cs.foldl
          (fun h c =>
            (update_history_entry h c.version c.arb c.major c.minor
              c.today c.is_historical).1) acc) ≤ 1 := by
      intro cs
      induction cs with
      | nil => intro acc hacc; exact hacc
      | cons c rest ih =>
        intro acc hacc
        exact ih _ (countCurrent_update_le _ _ _ _ _ _ _ hacc)
    exact gen calls [] (by simp [countCurrent])

theorem ledger_at_most_one_current_witness :
    countCurrent [rA] ≤ 1 ∧
    countCurrent (update_history_entry [rA] "vB" 1 3 0 "2026-02-02" false).1 ≤ 1 :=
  ⟨by decide,
    ledger_at_most_one_current.1 [rA] "vB" 1 3 0 "2026-02-02" false (by decide)⟩

/-- C2: when no existing record carries the given version, a
non-historical call archives every previous record, prepends a fresh
record with the given fields, `first_seen = last_checked = today` and
status `current`, and returns `true`; afterwards exactly one record is
`current`, and it is the new version at sequence position 0. -/
theorem update_new_version_live (h : List VersionRecord) (v : String)
    (arb major minor : Int) (today : String)
    (habs : ∀ e ∈ h, e.version ≠ v) :
    update_history_entry h v arb major minor today false =
      (freshRecord v arb major minor today "current" :: archiveAll h, true) ∧
    countCurrent (update_history_entry h v arb major minor today false).1 = 1 ∧
    (update_history_entry h v arb major minor today false).1.head? =
      some (freshRecord v arb major minor today "current") := by
  have hs : splitAtVersion v h = none := (splitAtVersion_none_iff v h).mpr habs
  have heq := update_insert_live h v arb major minor today hs
  refine ⟨heq, ?_, ?_⟩
  · rw [heq]
    simp [countCurrent_cons, countCurrent_archiveAll, freshRecord]
  · rw [heq]
    rfl

theorem update_new_version_live_witness :
    (∀ e ∈ [rA], e.version ≠ "vB") ∧
    (update_history_entry [rA] "vB" 1 3 0 "2026-02-02" false =
        (freshRecord "vB" 1 3 0 "2026-02-02" "current" :: archiveAll [rA], true) ∧
      countCurrent (update_history_entry [rA] "vB" 1 3 0 "2026-02-02" false).1 = 1 ∧
      (update_history_entry [rA] "vB" 1 3 0 "2026-02-02" false).1.head? =
        some (freshRecord "vB" 1 3 0 "2026-02-02" "current")) :=
  ⟨by decide, update_new_version_live [rA] "vB" 1 3 0 "2026-02-02" (by decide)⟩

/-- C3: if the history (whose version strings are pairwise distinct, as
the data model requires) contains a record with the given version whose
status is `archived`, a non-historical call is a promotion: the record's
`last_checked` is refreshed to today, every other record is archived, the
record becomes `current` and moves to sequence position 0, the history's
length is unchanged, and `true` is returned. -/
theorem update_promotion_claim (h : List VersionRecord) (v : String)
    (arb major minor : Int) (today : String) (entry : VersionRecord)
    (hnodup : (h.map VersionRecord.version).Nodup)
    (hentry : entry ∈ h) (hver : entry.version = v)
    (harch : entry.status = "archived") :
    ∃ pre post, h = pre ++ entry :: post ∧
      update_history_entry h v arb major minor today false =
        ({ entry with last_checked := today, status := "current" } ::
          (archiveAll pre ++ archiveAll post), true) ∧
      (update_history_entry h v arb major minor today false).1.length = h.length := by
  obtain ⟨pre, post, rfl⟩ := List.append_of_mem hentry
  have hpre : ∀ x ∈ pre, x.version ≠ v := by
    intro x hx hxv
    rw [List.map_append, List.map_cons] at hnodup
    have hdisj := (List.nodup_append.mp hnodup).2.2
    exact hdisj (List.mem_map_of_mem VersionRecord.version hx)
      (by rw [hxv, ← hver]; exact List.mem_cons_self _ _)
  have hs : splitAtVersion v (pre ++ entry :: post) = some (pre, entry, post) :=
    splitAtVersion_of_parts v pre post entry hpre hver
  have heq := update_promote (pre ++ entry :: post) pre post entry v arb major minor today hs harch
  refine ⟨pre, post, rfl, heq, ?_⟩
  rw [heq]
  simp [archiveAll_length]
  omega

theorem update_promotion_claim_witness :
    (([rA, rB].map VersionRecord.version).Nodup ∧ rB ∈ [rA, rB] ∧
      rB.version = "vB" ∧ rB.status = "archived") ∧
    (∃ pre post, [rA, rB] = pre ++ rB :: post ∧
      update_history_entry [rA, rB] "vB" 9 9 9 "2026-03-03" false =
        ({ rB with last_checked := "2026-03-03", status := "current" } ::
          (archiveAll pre ++ archiveAll post), true) ∧
      (update_history_entry [rA, rB] "vB" 9 9 9 "2026-03-03" false).1.length =
        [rA, rB].length) :=
  ⟨⟨by decide, by decide, by decide, by decide⟩,
    update_promotion_claim [rA, rB] "vB" 9 9 9 "2026-03-03" rB
      (by decide) (by decide) (by decide) (by decide)⟩

theorem archived_ne_current : ("archived" : String) ≠ "current" := by decide

/-- A record equal to `rB` except that its status is `current`; used to
build a history with two `current` records. -/
def rBcur : VersionRecord :=
  ⟨"vB", 1, 3, 0, "2026-01-01", "2026-01-01", "current"⟩

/-- C4: under the hypothesis that the given version is not the current
record, a historical call returns `false` and leaves the current record
unchanged; if the version is absent it appends a fresh `archived` record
at the end, and if it is present no record's status changes. -/
theorem historical_call_frame (h : List VersionRecord) (v : String)
    (arb major minor : Int) (today : String)
    (hnotcur : ∀ e ∈ h, e.version = v → e.status ≠ "current") :
    (update_history_entry h v arb major minor today true).2 = false ∧
    (update_history_entry h v arb major minor today true).1.filter
        (fun e => e.status = "current") =
      h.filter (fun e => e.status = "current") ∧
    ((∀ e ∈ h, e.version ≠ v) →
      (update_history_entry h v arb major minor today true).1 =
        h ++ [freshRecord v arb major minor today "archived"]) ∧
    ((∃ e ∈ h, e.version = v) →
      (update_history_entry h v arb major minor today true).1.map VersionRecord.status =
        h.map VersionRecord.status) := by
  cases hs : splitAtVersion v h with
  | none =>
    have habs : ∀ e ∈ h, e.version ≠ v := (splitAtVersion_none_iff v h).mp hs
    have heq := update_append_historical h v arb major minor today hs
    refine ⟨by rw [heq], ?_, fun _ => by rw [heq]; rfl, fun hex => ?_⟩
    · rw [heq]
      simp [List.filter_append, List.filter_cons, freshRecord, archived_ne_current]
    · obtain ⟨e, he, hev⟩ := hex
      exact absurd hev (habs e he)
  | some p =>
    obtain ⟨pre, entry, post⟩ := p
    obtain ⟨hdecomp, hver, hpre⟩ := splitAtVersion_some v h pre post entry hs
    have hentrymem : entry ∈ h := by
      rw [hdecomp]; exact List.mem_append_right _ (List.mem_cons_self _ _)
    have hcur : entry.status ≠ "current" := hnotcur entry hentrymem hver
    have heq := update_noop h pre post entry v arb major minor today true hs (Or.inl rfl)
    refine ⟨by rw [heq], ?_, fun habs => absurd hver (habs entry hentrymem), fun _ => ?_⟩
    · rw [heq, hdecomp]
      simp [List.filter_append, List.filter_cons, hcur]
    · rw [heq, hdecomp]
      simp

theorem historical_call_frame_witness :
    (∀ e ∈ [rA], e.version = "vB" → e.status ≠ "current") ∧
    ((update_history_entry [rA] "vB" 1 3 0 "2026-02-02" true).2 = false ∧
      (update_history_entry [rA] "vB" 1 3 0 "2026-02-02" true).1.filter
          (fun e => e.status = "current") =
        [rA].filter (fun e => e.status = "current") ∧
      ((∀ e ∈ [rA], e.version ≠ "vB") →
        (update_history_entry [rA] "vB" 1 3 0 "2026-02-02" true).1 =
          [rA] ++ [freshRecord "vB" 1 3 0 "2026-02-02" "archived"]) ∧
      ((∃ e ∈ [rA], e.version = "vB") →
        (update_history_entry [rA] "vB" 1 3 0 "2026-02-02" true).1.map VersionRecord.status =
          [rA].map VersionRecord.status)) :=
  ⟨by decide, historical_call_frame [rA] "vB" 1 3 0 "2026-02-02" (by decide)⟩

/-- C5 counterexample: starting from a history that already holds two
`current` records, a non-historical call on the version that is already
current returns without restructuring, so afterwards two records — not
exactly one — have status `current`. -/
theorem live_call_not_always_one_current :
    ¬ countCurrent (update_history_entry [rA, rBcur] "vA" 0 3 0 "2026-02-02" false).1 = 1 := by
  decide

/-- C5 (amended): provided every record's status is `current` or
`archived` and at most one record is `current` — the ledger's
well-formedness invariant — a non-historical call always leaves exactly
one record with status `current`. -/
theorem live_call_exactly_one_current (h : List VersionRecord) (v : String)
    (arb major minor : Int) (today : String)
    (hwf : ∀ e ∈ h, e.status = "current" ∨ e.status = "archived")
    (hle : countCurrent h ≤ 1) :
    countCurrent (update_history_entry h v arb major minor today false).1 = 1 := by
  cases hs : splitAtVersion v h with
  | none =>
    rw [update_insert_live h v arb major minor today hs]
    simp [countCurrent_cons, countCurrent_archiveAll]
  | some p =>
    obtain ⟨pre, entry, post⟩ := p
    obtain ⟨hdecomp, hver, hpre⟩ := splitAtVersion_some v h pre post entry hs
    by_cases harch : entry.status = "archived"
    · rw [update_promote h pre post entry v arb major minor today hs harch]
      simp [countCurrent_cons, countCurrent_append, countCurrent_archiveAll]
    · have hcur : entry.status = "current" := by
        have hor := hwf entry
          (by rw [hdecomp]; exact List.mem_append_right _ (List.mem_cons_self _ _))
        tauto
      rw [update_noop h pre post entry v arb major minor today false hs (Or.inr harch)]
      have heq : countCurrent (pre ++ { entry with last_checked := today } :: post) =
          countCurrent h := by
        rw [hdecomp, countCurrent_append, countCurrent_append,
          countCurrent_cons, countCurrent_cons]
      rw [heq]
      have hge : 1 ≤ countCurrent h := by
        rw [hdecomp, countCurrent_append, countCurrent_cons, if_pos hcur]
        omega
      omega

theorem live_call_exactly_one_current_witness :
    ((∀ e ∈ [rA, rB], e.status = "current" ∨ e.status = "archived") ∧
      countCurrent [rA, rB] ≤ 1) ∧
    countCurrent (update_history_entry [rA, rB] "vC" 2 3 0 "2026-02-02" false).1 = 1 :=
  ⟨⟨by decide, by decide⟩,
    live_call_exactly_one_current [rA, rB] "vC" 2 3 0 "2026-02-02"
      (by decide) (by decide)⟩

/-- Erase the `last_checked` field, so that equality up to `last_checked`
can be stated as an equality of mapped lists. -/
def clearChecked (e : VersionRecord) : VersionRecord :=
  { e with last_checked := "" }

/-- C6: calling `update_history_entry` twice in a row with identical
arguments and `is_historical = false` is structurally idempotent: the
second call changes nothing but `last_checked` (in particular the length,
the order and every status are unchanged) and returns `false`. -/
theorem live_call_idempotent (h : List VersionRecord) (v : String)
    (arb major minor : Int) (today1 today2 : String) :
    ((update_history_entry (update_history_entry h v arb major minor today1 false).1
        v arb major minor today2 false).1.map clearChecked =
      (update_history_entry h v arb major minor today1 false).1.map clearChecked) ∧
    (update_history_entry (update_history_entry h v arb major minor today1 false).1
        v arb major minor today2 false).2 = false := by
  cases hs : splitAtVersion v h with
  | none =>
    have h1 : (update_history_entry h v arb major minor today1 false).1 =
        freshRecord v arb major minor today1 "current" :: archiveAll h := by
      rw [update_insert_live h v arb major minor today1 hs]
      rfl
    have hs2 : splitAtVersion v
        (freshRecord v arb major minor today1 "current" :: archiveAll h) =
        some ([], freshRecord v arb major minor today1 "current", archiveAll h) := by
      simp [splitAtVersion, freshRecord]
    have h2 := update_noop _ [] (archiveAll h) _ v arb major minor today2 false hs2
      (Or.inr (by show ("current" : String) ≠ "archived"; decide))
    rw [h1, h2]
    simp [clearChecked, freshRecord]
  | some p =>
    obtain ⟨pre, entry, post⟩ := p
    obtain ⟨hdecomp, hver, hpre⟩ := splitAtVersion_some v h pre post entry hs
    by_cases harch : entry.status = "archived"
    · have h1 : (update_history_entry h v arb major minor today1 false).1 =
          { entry with last_checked := today1, status := "current" } ::
            (archiveAll pre ++ archiveAll post) := by
        rw [update_promote h pre post entry v arb major minor today1 hs harch]
      have hs2 : splitAtVersion v
          ({ entry with last_checked := today1, status := "current" } ::
            (archiveAll pre ++ archiveAll post)) =
          some ([], { entry with last_checked := today1, status := "current" },
            archiveAll pre ++ archiveAll post) := by
        simp [splitAtVersion, hver]
      have h2 := update_noop _ [] (archiveAll pre ++ archiveAll post) _ v arb major minor
        today2 false hs2 (Or.inr (by show ("current" : String) ≠ "archived"; decide))
      rw [h1, h2]
      simp [clearChecked]
    · have h1 : (update_history_entry h v arb major minor today1 false).1 =
          pre ++ { entry with last_checked := today1 } :: post := by
        rw [update_noop h pre post entry v arb major minor today1 false hs (Or.inr harch)]
      have hs2 : splitAtVersion v (pre ++ { entry with last_checked := today1 } :: post) =
          some (pre, { entry with last_checked := today1 }, post) :=
        splitAtVersion_of_parts v pre post _ hpre hver
      have h2 := update_noop _ pre post _ v arb major minor today2 false hs2 (Or.inr harch)
      rw [h1, h2]
      simp [clearChecked]

/-- The ledger JSON object persisted per device/region: the identifying
metadata fields written by `main` plus the `history` list.  A field value
of `none` models the JSON key being absent. -/
structure Ledger where
  device : Option String
  device_id : Option String
  region : Option String
  model : Option String
  history : List VersionRecord
  deriving DecidableEq, Repr

/-- The ledger `load_history` builds when the file is missing:
`{"history": []}` with no identifying fields. -/
def emptyLedger : Ledger := ⟨none, none, none, none, []⟩

/-- `load_history(history_file)` from `update_history.py`.  The file
system is modelled by `file`: `none` when the path does not exist,
`some contents` when it does.  `json_load` stands for Python's
`json.load`; its parse failures surface as `Except.error`. -/
def load_history (file : Option String)
    (json_load : String → Except String Ledger) : Except String Ledger :=
  match file with
  | some contents => json_load contents
  | none => Except.ok emptyLedger

/-- Modelled from the spec: Python's `json.load` as used by
`load_history` — the standard library parser is not part of this
repository.  The spec calls `load`/`save` a "trivial JSON round-trip",
so the serialization of the empty ledger parses back to the empty
ledger; every other input is treated as malformed here and raises. -/
def json_load_model (s : String) : Except String Ledger :=
  if s = "\x7b\"history\": []\x7d" then Except.ok emptyLedger
  else Except.error "Expecting value: line 1 column 1 (char 0)"

/-- C7 counterexample: a path that exists and holds the JSON text of the
empty ledger also loads to the empty ledger, so "returns the empty ledger
exactly when the path does not exist" fails right-to-left. -/
theorem load_history_empty_not_only_when_missing :
    ¬ (load_history (some "\x7b\"history\": []\x7d") json_load_model =
          Except.ok emptyLedger ↔
        (some "\x7b\"history\": []\x7d" : Option String) = none) := by
  intro hiff
  have hok : load_history (some "\x7b\"history\": []\x7d") json_load_model =
      Except.ok emptyLedger := by rfl
  exact Option.noConfusion (hiff.mp hok)

/-- C7 (amended): `load_history` returns the empty ledger `{"history": []}`
whenever the path does not exist; when the file exists the parser's
result is returned unchanged — in particular a parse error propagates to
the caller and the ledger is never silently reset to an empty one. -/
theorem load_history_contract (json_load : String → Except String Ledger) :
    load_history none json_load = Except.ok emptyLedger ∧
    (∀ contents, load_history (some contents) json_load = json_load contents) ∧
    (∀ contents err, json_load contents = Except.error err →
      load_history (some contents) json_load = Except.error err) := by
  refine ⟨rfl, fun contents => rfl, fun contents err herr => ?_⟩
  simpa [load_history] using herr

theorem load_history_contract_witness :
    json_load_model "not json" =
      Except.error "Expecting value: line 1 column 1 (char 0)" ∧
    load_history (some "not json") json_load_model =
      Except.error "Expecting value: line 1 column 1 (char 0)" :=
  ⟨by rfl,
    (load_history_contract json_load_model).2.2 "not json"
      "Expecting value: line 1 column 1 (char 0)" (by rfl)⟩

/-- `update_history_entry` applied at the ledger level: the function
receives the whole loaded JSON object but reads and writes only the
`history` key. -/
def update_ledger (l : Ledger) (version : String) (arb major minor : Int)
    (today : String) (is_historical : Bool) : Ledger × Bool :=
  let r := update_history_entry l.history version arb major minor today is_historical
  ({ l with history := r.1 }, r.2)

/-- The Reconciliation Driver's metadata step in `main`
(`update_history.py` lines 124–128): `if not history.get('device'):`
populates the four identifying fields.  Python's truthiness makes the
guard fire when `device` is absent (`None`) or the empty string.
`display_name` and `model_number` stand for the results of
`get_display_name(device_short)` and
`get_model_number(device_short, variant)` from `config.py`. -/
def populate_metadata (l : Ledger)
    (device_short variant display_name model_number : String) : Ledger :=
  if l.device.getD "" = "" then
    { l with device := some display_name, device_id := some device_short,
             region := some variant, model := some model_number }
  else l

/-- C8 counterexample: a ledger whose `device` field is present but holds
the empty string is repopulated by the driver — the guard is Python
falsiness, not absence of the field. -/
theorem populate_touches_empty_device :
    (⟨some "", none, none, none, []⟩ : Ledger).device ≠ none ∧
    populate_metadata ⟨some "", none, none, none, []⟩ "15" "GLO" "OnePlus 15" "CPH2747" ≠
      ⟨some "", none, none, none, []⟩ := by
  decide

/-- C8 (amended): the driver populates `device`, `device_id`, `region`,
`model` exactly when the loaded ledger's `device` field is missing or
empty (Python's falsy check), and `update_history_entry` reads and writes
no top-level ledger key other than `history`: each of the four
identifying fields keeps its value across every update call. -/
theorem metadata_fields_frame :
    (∀ (l : Ledger) (ds vr dn mn : String),
      l.device = none ∨ l.device = some "" →
        populate_metadata l ds vr dn mn =
          { l with device := some dn, device_id := some ds,
                   region := some vr, model := some mn }) ∧
    (∀ (l : Ledger) (ds vr dn mn : String),
      l.device ≠ none → l.device ≠ some "" →
        populate_metadata l ds vr dn mn = l) ∧
    (∀ (l : Ledger) (v : String) (arb major minor : Int) (today : String)
        (is_historical : Bool),
      (update_ledger l v arb major minor today is_historical).1.device = l.device ∧
      (update_ledger l v arb major minor today is_historical).1.device_id = l.device_id ∧
      (update_ledger l v arb major minor today is_historical).1.region = l.region ∧
      (update_ledger l v arb major minor today is_historical).1.model = l.model) := by
  refine ⟨fun l ds vr dn mn hdev => ?_, fun l ds vr dn mn h1 h2 => ?_,
    fun l v arb major minor today is_historical => ⟨rfl, rfl, rfl, rfl⟩⟩
  · rcases hdev with hdev | hdev <;> simp [populate_metadata, hdev]
  · cases hd : l.device with
    | none => exact absurd hd h1
    | some s =>
      have hs : s ≠ "" := by
        intro hemp
        exact h2 (by rw [hd, hemp])
      simp [populate_metadata, hd, hs]

theorem metadata_fields_frame_witness :
    ((emptyLedger.device = none ∨ emptyLedger.device = some "") ∧
      populate_metadata emptyLedger "15" "GLO" "OnePlus 15" "CPH2747" =
        { emptyLedger with device := some "OnePlus 15", device_id := some "15",
                           region := some "GLO", model := some "CPH2747" }) ∧
    ((⟨some "OnePlus 15", some "15", some "GLO", some "CPH2747", [rA]⟩ : Ledger).device ≠ none ∧
      (⟨some "OnePlus 15", some "15", some "GLO", some "CPH2747", [rA]⟩ : Ledger).device ≠ some "" ∧
      populate_metadata ⟨some "OnePlus 15", some "15", some "GLO", some "CPH2747", [rA]⟩
          "15" "GLO" "OnePlus 15" "CPH2747" =
        ⟨some "OnePlus 15", some "15", some "GLO", some "CPH2747", [rA]⟩) :=
  ⟨⟨Or.inl rfl,
      metadata_fields_frame.1 emptyLedger "15" "GLO" "OnePlus 15" "CPH2747" (Or.inl rfl)⟩,
    ⟨by decide, by decide,
      metadata_fields_frame.2.1 ⟨some "OnePlus 15", some "15", some "GLO", some "CPH2747", [rA]⟩
        "15" "GLO" "OnePlus 15" "CPH2747" (by decide) (by decide)⟩⟩

/-- Modelled from the spec: the Version Matcher used by the Firmware
Locator (`fetch_firmware.py`, whose source is not under `src/`; only its
tests are present).  Spec section 4.1: an empty candidate list means
NOT_FOUND regardless of the target; with no target the first candidate is
returned; a supplied target is returned only when it appears verbatim in
the candidates.  `none` plays NOT_FOUND. -/
def select (candidates : List String) (target : Option String) : Option String :=
  if candidates = [] then none
  else
    match target with
    | none => candidates.head?
    | some t => if t ∈ candidates then some t else none

/-- C9: `select` returns NOT_FOUND on an empty candidate list for every
target, the first candidate when the target is absent, the target itself
exactly when it occurs verbatim among the candidates, and NOT_FOUND
otherwise. -/
theorem select_contract :
    (∀ target : Option String, select [] target = none) ∧
    (∀ (c : String) (cs : List String), select (c :: cs) none = some c) ∧
    (∀ (c t : String) (cs : List String),
      t ∈ c :: cs → select (c :: cs) (some t) = some t) ∧
    (∀ (c t : String) (cs : List String),
      t ∉ c :: cs → select (c :: cs) (some t) = none) := by
  refine ⟨fun target => rfl, fun c cs => rfl,
    fun c t cs ht => ?_, fun c t cs ht => ?_⟩
  · simp [select, ht]
  · simp [select, ht]

theorem select_contract_witness :
    (("B" : String) ∈ ["A", "B"] ∧ select ["A", "B"] (some "B") = some "B") ∧
    (("C" : String) ∉ ["A", "B"] ∧ select ["A", "B"] (some "C") = none) :=
  ⟨⟨by decide, select_contract.2.2.1 "A" "B" ["B"] (by decide)⟩,
    ⟨by decide, select_contract.2.2.2 "A" "C" ["B"] (by decide)⟩⟩

/-- Characters matched by the regex class `\w` in
`^(\w+)=(.*)$` (ASCII range). -/
def isWordChar (c : Char) : Bool :=
  c.isAlphanum || c = '_'

/-- Whitespace removed by `str.strip()` from the values of `url=` and
`version=` lines (a line cannot contain a newline). -/
def isStripChar (c : Char) : Bool :=
  c = ' ' || c = '\t' || c = '\r' || c = '\x0b' || c = '\x0c'

/-- `value.strip()` on one line's value. -/
def stripChars (l : List Char) : List Char :=
  ((l.dropWhile isStripChar).reverse.dropWhile isStripChar).reverse

/-- ASCII lower-casing, modelling the `re.IGNORECASE` comparison of the
section header and `key.lower()`. -/
def lowerChar (c : Char) : Char :=
  if 'A' ≤ c ∧ c ≤ 'Z' then Char.ofNat (c.toNat + 32) else c

def lowerAll (l : List Char) : List Char := l.map lowerChar

/-- Split a character stream into its lines: the positions after the
splits are exactly where a MULTILINE `^` matches. -/
def splitLines : List Char → List (List Char)
  | [] => [[]]
  | c :: rest =>
    if c = '\n' then [] :: splitLines rest
    else
      match splitLines rest with
      | [] => [[c]]
      | line :: ls => (c :: line) :: ls

/-- The literal text of the section-header pattern
`^\[{re.escape(section_name)}\]`. -/
def headerPat (section_name : String) : List Char :=
  '[' :: (section_name.data ++ [']'])

/-- `section_regex.search(ini_content)` followed by the slicing at
`match.end()`: find the first line beginning (case-insensitively) with
`[section_name]`, and return the remainder of that line after the closing
bracket together with the lines after it. -/
def findSection (pat : List Char) : List (List Char) →
    Option (List Char × List (List Char))
  | [] => none
  | line :: rest =>
    if (lowerAll pat).isPrefixOf (lowerAll line) then
      some (line.drop pat.length, rest)
    else findSection pat rest

/-- One entry of `parse_ini_section`'s result list,
`{'version': ..., 'url': ...}`. -/
structure VersionUrl where
  version : String
  url : String
  deriving DecidableEq, Repr

/-- Match one line against `^(\w+)=(.*)$`: a non-empty run of word
characters followed immediately by `=`, capturing the key and the rest of
the line. -/
def parseKV (line : List Char) : Option (List Char × List Char) :=
  let w := line.takeWhile isWordChar
  if w.isEmpty then none
  else
    match line.drop w.length with
    | '=' :: value => some (w, value)
    | _ => none

/-- The key/value accumulation loop of `parse_ini_section`: a `url=` line
sets the pending URL; a `version=` line appends a result when both the
stripped version and the pending URL are non-empty and the version is not
yet present, then clears the pending URL and stops as soon as
`max_versions` results exist. -/
def collectVersions (max_versions : Nat) (current_url : Option String)
    (results : List VersionUrl) :
    List (List Char × List Char) → List VersionUrl
  | [] => results
  | (k, v) :: rest =>
    if lowerAll k = "url".data then
      collectVersions max_versions (some (String.mk (stripChars v))) results rest
    else if lowerAll k = "version".data then
      let version := String.mk (stripChars v)
      if version ≠ "" ∧ current_url.getD "" ≠ "" then
        let results' :=
          if results.any (fun r => r.version = version) then results
          else results ++ [⟨version, current_url.getD ""⟩]
        if max_versions ≤ results'.length then results'
        else collectVersions max_versions none results' rest
      else collectVersions max_versions current_url results rest
    else collectVersions max_versions current_url results rest

/-- `parse_ini_section(ini_content, section_name, max_versions)` from
`parse_firmware_history.py`: locate the section header, cut the block at
the next line starting with `[`, extract `key=value` lines and fold them
with `collectVersions`. -/
def parse_ini_section (ini_content section_name : String)
    (max_versions : Nat) : List VersionUrl :=
  match findSection (headerPat section_name) (splitLines ini_content.data) with
  | none => []
  | some (restOfHeader, rest) =>
    let block := (restOfHeader :: rest).takeWhile (fun l => l.head? ≠ some '[')
    collectVersions max_versions none [] (block.filterMap parseKV)

theorem findSection_none_of_no_header (pat : List Char) (lines : List (List Char))
    (h : ∀ line ∈ lines, ¬ (lowerAll pat).isPrefixOf (lowerAll line)) :
    findSection pat lines = none := by
  induction lines with
  | nil => rfl
  | cons l rest ih =>
    have hl := h l (List.mem_cons_self _ _)
    simp only [findSection, if_neg hl]
    exact ih (fun x hx => h x (List.mem_cons_of_mem _ hx))

theorem collectVersions_invariant (max_versions : Nat)
    (kvs : List (List Char × List Char)) :
    ∀ (current_url : Option String) (results : List VersionUrl),
      (results.map VersionUrl.version).Nodup →
      (∀ r ∈ results, r.version ≠ "" ∧ r.url ≠ "") →
      (results.length = 0 ∨ results.length < max_versions) →
      ((collectVersions max_versions current_url results kvs).map VersionUrl.version).Nodup ∧
      (∀ r ∈ collectVersions max_versions current_url results kvs,
        r.version ≠ "" ∧ r.url ≠ "") ∧
      (collectVersions max_versions current_url results kvs).length ≤ max 1 max_versions := by
  have h1 : (1 : Nat) ≤ max 1 max_versions := Nat.le_max_left _ _
  have h2 : max_versions ≤ max 1 max_versions := Nat.le_max_right _ _
  induction kvs with
  | nil =>
    intro current_url results hnd hne hlen
    refine ⟨hnd, hne, ?_⟩
    simp only [collectVersions]
    omega
  | cons kv rest ih =>
    obtain ⟨k, v⟩ := kv
    intro current_url results hnd hne hlen
    simp only [collectVersions]
    by_cases hkey : lowerAll k = "url".data
    · rw [if_pos hkey]
      exact ih _ results hnd hne hlen
    · rw [if_neg hkey]
      by_cases hkey2 : lowerAll k = "version".data
      · rw [if_pos hkey2]
        by_cases hval : String.mk (stripChars v) ≠ "" ∧ current_url.getD "" ≠ ""
        · rw [if_pos hval]
          by_cases hdup : results.any (fun r => r.version = String.mk (stripChars v)) = true
          · rw [if_pos hdup]
            by_cases hmax : max_versions ≤ results.length
            · rw [if_pos hmax]
              exact ⟨hnd, hne, by omega⟩
            · rw [if_neg hmax]
              exact ih none results hnd hne (Or.inr (by omega))
          · rw [if_neg hdup]
            have hdup' : ∀ r ∈ results, r.version ≠ String.mk (stripChars v) := by
              intro r hr hrv
              exact hdup (List.any_eq_true.mpr ⟨r, hr, by simpa using hrv⟩)
            have hnotmem : String.mk (stripChars v) ∉ results.map VersionUrl.version := by
              intro hmem
              obtain ⟨r, hr, hrv⟩ := List.mem_map.mp hmem
              exact hdup' r hr hrv
            have hnd' : ((results ++
                [({ version := String.mk (stripChars v), url := current_url.getD "" } : VersionUrl)]).map
                  VersionUrl.version).Nodup := by
              rw [List.map_append]
              rw [List.nodup_append]
              exact ⟨hnd, List.nodup_singleton _,
                by simpa [List.disjoint_singleton] using hnotmem⟩
            have hne' : ∀ r ∈ results ++
                [({ version := String.mk (stripChars v), url := current_url.getD "" } : VersionUrl)],
                r.version ≠ "" ∧ r.url ≠ "" := by
              intro r hr
              rcases List.mem_append.mp hr with hr | hr
              · exact hne r hr
              · rcases List.mem_singleton.mp hr with rfl
                exact ⟨hval.1, hval.2⟩
            have hlen' : (results ++
                [({ version := String.mk (stripChars v), url := current_url.getD "" } : VersionUrl)]).length =
                results.length + 1 := by simp
            by_cases hmax : max_versions ≤
                (results ++ [({ version := String.mk (stripChars v), url := current_url.getD "" } : VersionUrl)]).length
            · rw [if_pos hmax]
              exact ⟨hnd', hne', by omega⟩
            · rw [if_neg hmax]
              exact ih none _ hnd' hne' (Or.inr (by omega))
        · rw [if_neg hval]
          exact ih _ results hnd hne hlen
      · rw [if_neg hkey2]
        exact ih _ results hnd hne hlen

/-- C10 counterexample: with `max_versions = 0` the loop appends its
first entry before checking the bound, so one entry is returned although
the claim demands a list of at most zero entries. -/
theorem parse_ini_limit_zero_exceeded :
    ¬ ((parse_ini_section "[A]\nurl=x\nversion=1" "A" 0).length ≤ 0) := by
  decide

/-- C10 (amended): for every INI text, section name and limit,
`parse_ini_section` returns at most `max 1 max_versions` entries (the
bound `max_versions` itself holds whenever `max_versions ≥ 1`; with
`max_versions = 0` a single entry can still be returned), the version
strings are pairwise distinct and non-empty, every URL is non-empty, and
when no line starts with a matching section header the result is the
empty list. -/
theorem parse_ini_section_contract (ini_content section_name : String)
    (max_versions : Nat) :
    (parse_ini_section ini_content section_name max_versions).length ≤
      max 1 max_versions ∧
    ((parse_ini_section ini_content section_name max_versions).map
      VersionUrl.version).Nodup ∧
    (∀ r ∈ parse_ini_section ini_content section_name max_versions,
      r.version ≠ "" ∧ r.url ≠ "") ∧
    ((∀ line ∈ splitLines ini_content.data,
        ¬ (lowerAll (headerPat section_name)).isPrefixOf (lowerAll line)) →
      parse_ini_section ini_content section_name max_versions = []) := by
  cases hf : findSection (headerPat section_name) (splitLines ini_content.data) with
  | none =>
    have hempty : parse_ini_section ini_content section_name max_versions = [] := by
      simp [parse_ini_section, hf]
    rw [hempty]
    exact ⟨by simp, by simp, by simp, fun _ => rfl⟩
  | some p =>
    obtain ⟨restOfHeader, rest⟩ := p
    have hrun : parse_ini_section ini_content section_name max_versions =
        collectVersions max_versions none []
          (((restOfHeader :: rest).takeWhile
            (fun l => l.head? ≠ some '[')).filterMap parseKV) := by
      simp [parse_ini_section, hf]
    obtain ⟨hnd, hne, hlen⟩ := collectVersions_invariant max_versions
      (((restOfHeader :: rest).takeWhile
        (fun l => l.head? ≠ some '[')).filterMap parseKV) none []
      (by simp) (by simp) (Or.inl rfl)
    refine ⟨by rw [hrun]; exact hlen, by rw [hrun]; exact hnd,
      by rw [hrun]; exact hne, fun hnoline => ?_⟩
    have hcontra := findSection_none_of_no_header (headerPat section_name)
      (splitLines ini_content.data) hnoline
    rw [hf] at hcontra
    exact Option.noConfusion hcontra

theorem parse_ini_section_contract_witness :
    (∀ line ∈ splitLines ("url=x" : String).data,
      ¬ (lowerAll (headerPat "A")).isPrefixOf (lowerAll line)) ∧
    parse_ini_section "url=x" "A" 4 = [] :=
  ⟨by decide, (parse_ini_section_contract "url=x" "A" 4).2.2.2 (by decide)⟩
